import Mathlib

/-!
Verification of the cloudsql-exporter backup/restore orchestration core.

The Go sources are shallowly embedded as Lean definitions:

* file paths and file contents are modelled as `List Char` (Go strings are
  byte sequences; every operation the code performs on them is on exact
  characters), with models of the Go standard-library helpers actually used
  (`strings.Split` on a one-character separator, `strings.Join`,
  `path/filepath.Base`, `path/filepath.Dir`, `path/filepath.Clean`);
* the storage Location codec (`pkg/storage`) is translated function by
  function (`databaseFromFile`, `Location.DatabaseLocation`, `NewLocation`);
* bucket IAM policies, the operation-wait loop, the statistics validation of
  `Restore`, the database/user enumeration filters, and the user-list
  artifact round trip are each embedded from the corresponding Go function.
-/

namespace CloudsqlExporter

/-! ## Model of Go strings and the stdlib helpers used by the code -/

/-- Go strings, modelled character by character. -/
abbrev Str := List Char

/-- Model of Go `strings.Split(s, sep)` for a one-character separator `c`:
all substrings between consecutive separators, keeping empty ones. -/
def splitChar (c : Char) : Str → List Str
  | [] => [[]]
  | x :: xs =>
    match splitChar c xs with
    | [] => [[x]]
    | y :: ys => if x = c then [] :: y :: ys else (x :: y) :: ys

/-- Model of Go `strings.Join(xs, sep)` for a one-character separator. -/
def joinChar (c : Char) : List Str → Str
  | [] => []
  | [s] => s
  | s :: rest => s ++ c :: joinChar c rest

theorem splitChar_ne_nil (c : Char) (s : Str) : splitChar c s ≠ [] := by
  cases s with
  | nil => simp [splitChar]
  | cons x xs =>
    simp only [splitChar]
    cases h : splitChar c xs with
    | nil => simp
    | cons y ys =>
      by_cases hx : x = c <;> simp [hx]

theorem splitChar_of_not_mem {c : Char} {s : Str} (h : c ∉ s) :
    splitChar c s = [s] := by
  induction s with
  | nil => rfl
  | cons x xs ih =>
    simp only [List.mem_cons, not_or] at h
    have hxc : ¬x = c := fun hx => h.1 hx.symm
    simp [splitChar, ih h.2, hxc]

theorem splitChar_append (c : Char) (a b : Str) :
    splitChar c (a ++ c :: b) = splitChar c a ++ splitChar c b := by
  induction a with
  | nil =>
    simp only [List.nil_append, splitChar]
    cases h : splitChar c b with
    | nil => exact absurd h (splitChar_ne_nil c b)
    | cons y ys => simp
  | cons x xs ih =>
    cases h : splitChar c xs with
    | nil => exact absurd h (splitChar_ne_nil c xs)
    | cons y ys =>
      simp only [List.cons_append, splitChar, List.append_eq]
      rw [ih, h]
      by_cases hx : x = c <;> simp [hx]

theorem joinChar_splitChar (c : Char) (s : Str) :
    joinChar c (splitChar c s) = s := by
  induction s with
  | nil => rfl
  | cons x xs ih =>
    simp only [splitChar]
    cases h : splitChar c xs with
    | nil => exact absurd h (splitChar_ne_nil c xs)
    | cons y ys =>
      rw [h] at ih
      by_cases hx : x = c

      · subst hx
        cases ys with
        | nil =>
          simp only [if_pos rfl, joinChar] at ih ⊢
          simp [ih]
        | cons z zs =>
          simp only [if_pos rfl, joinChar] at ih ⊢
          simp [ih]
      · cases ys with
        | nil =>
          simp only [if_neg hx, joinChar] at ih ⊢
          simp [ih]
        | cons z zs =>
          simp only [if_neg hx, joinChar] at ih ⊢
          simp [ih]

/-- One step of the segment processing inside Go `path/filepath.Clean`:
empty and `"."` segments are dropped, `".."` pops the previous segment
(except at the root, or when there is nothing left to pop in a relative
path), anything else is kept. -/
def cleanStep (rooted : Bool) (out : List Str) (seg : Str) : List Str :=
  if seg = [] ∨ seg = ['.'] then out
  else if seg = ['.', '.'] then
    if out ≠ [] ∧ out.getLast? ≠ some ['.', '.'] then out.dropLast
    else if rooted then out else out ++ [seg]
  else out ++ [seg]

/-- Model of Go `path/filepath.Clean` on slash-separated paths. -/
def goClean (p : Str) : Str :=
  let rooted : Bool := decide (p.head? = some '/')
  let out := (splitChar '/' p).foldl (cleanStep rooted) []
  let r := (if rooted then ['/'] else []) ++ joinChar '/' out
  if r = [] then ['.'] else r

/-- Model of Go `path/filepath.Base`: strip trailing slashes, then keep
everything after the last slash. -/
def goBase (p : Str) : Str :=
  if p = [] then ['.']
  else
    let q := (p.reverse.dropWhile (fun ch => ch = '/')).reverse
    if q = [] then ['/']
    else (q.reverse.takeWhile (fun ch => ch ≠ '/')).reverse

/-- Model of Go `path/filepath.Dir`: everything up to and including the last
slash, run through `Clean` (`"."` when there is no slash). -/
def goDir (p : Str) : Str :=
  goClean (p.take (p.length - (p.reverse.takeWhile (fun ch => ch ≠ '/')).length))

/-! ## The Location codec (`pkg/storage`, file `part_001`) -/

/-- Go struct `pkg/storage.Location`: metadata of one backup artifact location. -/
structure Location where
  Bucket : Str
  Database : Str
  Instance : Str
  Path : Str
  Time : Str
  Compression : Bool
deriving DecidableEq

/-- Go `databaseFromFile`: base name of the file, split on `-`, all tokens
but the last rejoined with `-`. -/
def databaseFromFile (file : Str) : Str :=
  let name := goBase file
  let ss := splitChar '-' name
  joinChar '-' ss.dropLast

/-- Go `Location.DatabaseLocation`:
`gs://{bucket}/{instance}/cloudsql/{database}-{time}.sql[.gz]`. -/
def Location.DatabaseLocation (b : Location) (database : Str) : Str :=
  let suffix : Str := if b.Compression then "sql.gz".data else "sql".data
  "gs://".data ++ b.Bucket ++ '/' :: b.Instance ++ "/cloudsql/".data
    ++ database ++ '-' :: b.Time ++ '.' :: suffix

/-- Go `NewLocation`: parse the location metadata back out of a file path.
The Go struct literal never assigns `Compression`, so it gets the zero
value `false`. -/
def NewLocation (file : Str) : Location :=
  let bucket := (splitChar '/' file).getD 2 []
  let ss := splitChar '/' (goDir file)
  let instanceName := ss.getD 2 []
  let path := joinChar '/' (ss.drop 2) ++ ['/']
  let ss2 := splitChar '-' (goBase file)
  let time := (splitChar '.' (ss2.getD (ss2.length - 1) [])).getD 0 []
  let database := databaseFromFile file
  { Bucket := bucket
    Path := path
    Instance := instanceName
    Database := database
    Time := time
    Compression := false }

example :
    NewLocation "gs://b/payment-service/cloudsql/payment-events-20240404T152957.sql.gz".data
      = { Bucket := "b".data
          Path := "payment-service/cloudsql/".data
          Instance := "payment-service".data
          Database := "payment-events".data
          Time := "20240404T152957".data
          Compression := false } := by decide

/-! ## Supporting lemmas for the codec round trip -/

theorem splitChar_sandwich (c : Char) (a : Str) (h : c ∉ a) (b : Str) :
    splitChar c (a ++ c :: b) = a :: splitChar c b := by
  rw [splitChar_append, splitChar_of_not_mem h]
  rfl

theorem takeWhile_all_append (p : Char → Bool) (l1 : Str) (a : Char) (l2 : Str)
    (h1 : ∀ x ∈ l1, p x = true) (h2 : p a = false) :
    (l1 ++ a :: l2).takeWhile p = l1 := by
  induction l1 with
  | nil => simp [List.takeWhile_cons, h2]
  | cons x xs ih =>
    have hx := h1 x (List.mem_cons_self x xs)
    simp only [List.cons_append, List.takeWhile_cons, hx, if_true]
    rw [ih (fun y hy => h1 y (List.mem_cons_of_mem x hy))]

theorem getD_concat (L : List Str) (x : Str) : (L ++ [x]).getD L.length [] = x := by
  induction L with
  | nil => rfl
  | cons a t ih => simp [List.getD]

theorem reverse_append_cons (d : Str) (a : Char) (b : Str) :
    (d ++ a :: b).reverse = b.reverse ++ a :: d.reverse := by
  simp

/-- Go `filepath.Base` on a path whose final segment `b` is nonempty and
slash-free returns that segment. -/
theorem goBase_eq {b : Str} (hb : '/' ∉ b) (hbne : b ≠ []) (d : Str) :
    goBase (d ++ '/' :: b) = b := by
  obtain ⟨x, xs, hbr⟩ : ∃ x xs, b.reverse = x :: xs := by
    cases h : b.reverse with
    | nil => exact absurd (by simpa using congrArg List.reverse h) hbne
    | cons x xs => exact ⟨x, xs, rfl⟩
  have hxb : x ∈ b := by
    have : x ∈ b.reverse := by rw [hbr]; exact List.mem_cons_self x xs
    simpa using this
  have hxs : x ≠ '/' := fun hx => hb (hx ▸ hxb)
  have hrev : (d ++ '/' :: b).reverse = b.reverse ++ '/' :: d.reverse :=
    reverse_append_cons d '/' b
  have hdrop : (d ++ '/' :: b).reverse.dropWhile (fun ch => ch = '/')
      = (d ++ '/' :: b).reverse := by
    rw [hrev, hbr]
    simp [List.dropWhile_cons, hxs]
  have htake : (d ++ '/' :: b).reverse.takeWhile (fun ch => ch ≠ '/') = b.reverse := by
    rw [hrev]
    exact takeWhile_all_append _ b.reverse '/' d.reverse
      (fun y hy => by
        simp only [decide_eq_true_eq]
        exact fun h => hb (h ▸ (by simpa using hy)))
      (by simp)
  unfold goBase
  rw [if_neg (by simp)]
  simp only [hdrop, List.reverse_reverse]
  rw [if_neg (by simp), htake, List.reverse_reverse]

/-- Go `filepath.Dir` on a path whose final segment `b` is slash-free is
`Clean` of everything up to and including the final slash. -/
theorem goDir_eq {b : Str} (hb : '/' ∉ b) (d : Str) :
    goDir (d ++ '/' :: b) = goClean (d ++ ['/']) := by
  have htake : (d ++ '/' :: b).reverse.takeWhile (fun ch => ch ≠ '/') = b.reverse := by
    rw [reverse_append_cons d '/' b]
    exact takeWhile_all_append _ b.reverse '/' d.reverse
      (fun y hy => by
        simp only [decide_eq_true_eq]
        exact fun h => hb (h ▸ (by simpa using hy)))
      (by simp)
  have hsplit : d ++ '/' :: b = (d ++ ['/']) ++ b := by simp
  have hlen : (d ++ '/' :: b).length - b.reverse.length = (d ++ ['/']).length := by
    simp only [List.length_append, List.length_cons, List.length_reverse]
    simp
    omega
  unfold goDir
  rw [htake, hlen, hsplit, List.take_left]

theorem cleanStep_push (rooted : Bool) (out : List Str) (seg : Str)
    (h0 : seg ≠ []) (h1 : seg ≠ ['.']) (h2 : seg ≠ ['.', '.']) :
    cleanStep rooted out seg = out ++ [seg] := by
  simp [cleanStep, h0, h1, h2]

theorem cleanStep_skip (rooted : Bool) (out : List Str) :
    cleanStep rooted out [] = out := by
  simp [cleanStep]

/-- The segment fold of `Clean` on the directory part
`gs://{bucket}/{instance}/cloudsql/` keeps `gs:`, bucket, instance and
`cloudsql` and drops the empty segments. -/
theorem cleanFold_dir (B I : Str)
    (hB0 : B ≠ []) (hB1 : B ≠ ['.']) (hB2 : B ≠ ['.', '.'])
    (hI0 : I ≠ []) (hI1 : I ≠ ['.']) (hI2 : I ≠ ['.', '.']) :
    List.foldl (cleanStep false) []
        [['g', 's', ':'], [], B, I, "cloudsql".data, []]
      = [['g', 's', ':'], B, I, "cloudsql".data] := by
  simp only [List.foldl_cons, List.foldl_nil, cleanStep_skip]
  rw [cleanStep_push _ _ ['g', 's', ':'] (by decide) (by decide) (by decide)]
  rw [cleanStep_push _ _ B hB0 hB1 hB2]
  rw [cleanStep_push _ _ I hI0 hI1 hI2]
  rw [cleanStep_push _ _ "cloudsql".data (by decide) (by decide) (by decide)]
  simp

/-! ## C1: round trip of `Location.DatabaseLocation` through `NewLocation` -/

/-- C1 (amended part). For every backup-location tuple whose bucket and
instance are nonempty, not `.`/`..` and slash-free, whose database is
slash-free, and whose timestamp is free of `/`, `-` and `.`, parsing the
built database location recovers bucket, instance, database (including
hyphenated database names) and timestamp exactly — but the `Compression`
flag of the parsed location is always `false`, because `NewLocation` never
assigns it. -/
theorem newLocation_databaseLocation_roundtrip
    (B I D T P : Str) (c : Bool)
    (hB : '/' ∉ B) (hB0 : B ≠ []) (hB1 : B ≠ ['.']) (hB2 : B ≠ ['.', '.'])
    (hI : '/' ∉ I) (hI0 : I ≠ []) (hI1 : I ≠ ['.']) (hI2 : I ≠ ['.', '.'])
    (hD : '/' ∉ D)
    (hT : '/' ∉ T) (hTd : '-' ∉ T) (hTp : '.' ∉ T) :
    NewLocation (Location.DatabaseLocation ⟨B, D, I, P, T, c⟩ D)
      = ⟨B, D, I, I ++ "/cloudsql/".data, T, false⟩ := by
  obtain ⟨suffix, hfile, hsufSlash, hsufDash⟩ :
      ∃ suffix : Str,
        Location.DatabaseLocation ⟨B, D, I, P, T, c⟩ D
            = ['g', 's', ':'] ++ '/' :: (([] : Str) ++ '/' :: (B ++ '/' ::
                (I ++ '/' :: ("cloudsql".data ++ '/' ::
                  (D ++ '-' :: (T ++ '.' :: suffix))))))
          ∧ '/' ∉ suffix ∧ '-' ∉ suffix := by
    cases c with
    | false =>
      refine ⟨"sql".data, ?_, by decide, by decide⟩
      simp [Location.DatabaseLocation]
    | true =>
      refine ⟨"sql.gz".data, ?_, by decide, by decide⟩
      simp [Location.DatabaseLocation]
  have hfile2 :
      Location.DatabaseLocation ⟨B, D, I, P, T, c⟩ D
        = (['g', 's', ':'] ++ '/' :: (([] : Str) ++ '/' :: (B ++ '/' ::
            (I ++ '/' :: "cloudsql".data))))
          ++ '/' :: (D ++ '-' :: (T ++ '.' :: suffix)) := by
    rw [hfile]; simp
  have hbaseSlash : '/' ∉ D ++ '-' :: (T ++ '.' :: suffix) := by
    intro h
    simp only [List.mem_append, List.mem_cons] at h
    rcases h with h | h | h | h | h
    · exact hD h
    · exact absurd h (by decide)
    · exact hT h
    · exact absurd h (by decide)
    · exact hsufSlash h
  have hbaseNe : (D ++ '-' :: (T ++ '.' :: suffix) : Str) ≠ [] := by simp
  have hsplitFile :
      splitChar '/' (Location.DatabaseLocation ⟨B, D, I, P, T, c⟩ D)
        = [['g', 's', ':'], [], B, I, "cloudsql".data,
            D ++ '-' :: (T ++ '.' :: suffix)] := by
    rw [hfile, splitChar_sandwich '/' ['g', 's', ':'] (by decide),
      splitChar_sandwich '/' [] (by simp), splitChar_sandwich '/' B hB,
      splitChar_sandwich '/' I hI,
      splitChar_sandwich '/' "cloudsql".data (by decide),
      splitChar_of_not_mem hbaseSlash]
  have hBase :
      goBase (Location.DatabaseLocation ⟨B, D, I, P, T, c⟩ D)
        = D ++ '-' :: (T ++ '.' :: suffix) := by
    rw [hfile2]; exact goBase_eq hbaseSlash hbaseNe _
  have hDir :
      goDir (Location.DatabaseLocation ⟨B, D, I, P, T, c⟩ D)
        = goClean ((['g', 's', ':'] ++ '/' :: (([] : Str) ++ '/' :: (B ++ '/' ::
            (I ++ '/' :: "cloudsql".data)))) ++ ['/']) := by
    rw [hfile2]; exact goDir_eq hbaseSlash _
  have hdirShape :
      (['g', 's', ':'] ++ '/' :: (([] : Str) ++ '/' :: (B ++ '/' ::
          (I ++ '/' :: "cloudsql".data)))) ++ ['/']
        = ['g', 's', ':'] ++ '/' :: (([] : Str) ++ '/' :: (B ++ '/' ::
            (I ++ '/' :: ("cloudsql".data ++ '/' :: ([] : Str))))) := by
    simp
  have hsplitDir :
      splitChar '/' ((['g', 's', ':'] ++ '/' :: (([] : Str) ++ '/' :: (B ++ '/' ::
          (I ++ '/' :: "cloudsql".data)))) ++ ['/'])
        = [['g', 's', ':'], [], B, I, "cloudsql".data, []] := by
    rw [hdirShape, splitChar_sandwich '/' ['g', 's', ':'] (by decide),
      splitChar_sandwich '/' [] (by simp), splitChar_sandwich '/' B hB,
      splitChar_sandwich '/' I hI,
      splitChar_sandwich '/' "cloudsql".data (by decide)]
    rfl
  have hheadDir :
      ((['g', 's', ':'] ++ '/' :: (([] : Str) ++ '/' :: (B ++ '/' ::
          (I ++ '/' :: "cloudsql".data)))) ++ ['/']).head? = some 'g' := rfl
  have hclean :
      goClean ((['g', 's', ':'] ++ '/' :: (([] : Str) ++ '/' :: (B ++ '/' ::
          (I ++ '/' :: "cloudsql".data)))) ++ ['/'])
        = ['g', 's', ':'] ++ '/' :: (B ++ '/' :: (I ++ '/' :: "cloudsql".data)) := by
    simp only [goClean, hheadDir, hsplitDir]
    rw [show (decide ((some 'g' : Option Char) = some '/')) = false from rfl]
    rw [cleanFold_dir B I hB0 hB1 hB2 hI0 hI1 hI2]
    simp [joinChar]
  have hsplitClean :
      splitChar '/' (['g', 's', ':'] ++ '/' :: (B ++ '/' :: (I ++ '/' ::
          "cloudsql".data)))
        = [['g', 's', ':'], B, I, "cloudsql".data] := by
    rw [splitChar_sandwich '/' ['g', 's', ':'] (by decide),
      splitChar_sandwich '/' B hB, splitChar_sandwich '/' I hI,
      splitChar_of_not_mem (show '/' ∉ "cloudsql".data by decide)]
  have htailDash : '-' ∉ T ++ '.' :: suffix := by
    intro h
    simp only [List.mem_append, List.mem_cons] at h
    rcases h with h | h | h
    · exact hTd h
    · exact absurd h (by decide)
    · exact hsufDash h
  have hsplitBase :
      splitChar '-' (D ++ '-' :: (T ++ '.' :: suffix))
        = splitChar '-' D ++ [T ++ '.' :: suffix] := by
    rw [splitChar_append, splitChar_of_not_mem htailDash]
  have hlastTok :
      (splitChar '-' D ++ [T ++ '.' :: suffix]).getD
          ((splitChar '-' D ++ [T ++ '.' :: suffix]).length - 1) []
        = T ++ '.' :: suffix := by
    have hlen : (splitChar '-' D ++ [T ++ '.' :: suffix]).length - 1
        = (splitChar '-' D).length := by simp
    rw [hlen, getD_concat]
  have hTime : (splitChar '.' (T ++ '.' :: suffix)).getD 0 [] = T := by
    rw [splitChar_sandwich '.' T hTp]
    rfl
  have hDb :
      databaseFromFile (Location.DatabaseLocation ⟨B, D, I, P, T, c⟩ D) = D := by
    simp only [databaseFromFile]
    rw [hBase, hsplitBase, List.dropLast_concat, joinChar_splitChar]
  simp only [NewLocation]
  rw [hsplitFile, hDir, hclean, hsplitClean, hBase, hsplitBase, hlastTok, hTime, hDb]
  simp [joinChar, List.getD]

/-- C1 (counterexample). The claim as stated fails on the compression
flag: building the database location of a tuple with `Compression := true`
and parsing it back yields a location whose `Compression` is `false`, so
`parse (build tuple)` is not the original tuple. -/
theorem newLocation_databaseLocation_not_full_roundtrip :
    NewLocation (Location.DatabaseLocation
        ⟨"b".data, "payment-events".data, "payment-service".data,
          "payment-service/cloudsql/".data, "20240404T152957".data, true⟩
        "payment-events".data)
      ≠ ⟨"b".data, "payment-events".data, "payment-service".data,
          "payment-service/cloudsql/".data, "20240404T152957".data, true⟩ := by
  decide

/-- C1 (witness). The amended round trip evaluated at a concrete tuple
with a hyphenated database name. -/
theorem newLocation_databaseLocation_roundtrip_witness :
    NewLocation (Location.DatabaseLocation
        ⟨"b".data, "payment-events".data, "payment-service".data,
          "payment-service/cloudsql/".data, "20240404T152957".data, true⟩
        "payment-events".data)
      = ⟨"b".data, "payment-events".data, "payment-service".data,
          "payment-service".data ++ "/cloudsql/".data,
          "20240404T152957".data, false⟩ :=
  newLocation_databaseLocation_roundtrip
    "b".data "payment-service".data "payment-events".data
    "20240404T152957".data "payment-service/cloudsql/".data true
    (by decide) (by decide) (by decide) (by decide)
    (by decide) (by decide) (by decide) (by decide)
    (by decide)
    (by decide) (by decide) (by decide)

/-! ## Bucket IAM policies

Model of `cloud.google.com/go/iam.Policy` as used by
`CloudSQL.AddRoleBindingToGCSBucket` and `CloudSQL.RemoveRoleBindingToGCSBucket`
(`part_002`, lines 98-149): a policy is a list of role bindings; `HasRole`
checks membership in the first binding carrying the role, `Add` appends the
member to that binding (or appends a fresh binding), `Remove` deletes the
member from that binding and drops the binding when it empties.  The Go
`Remove` swaps with the last member before shrinking; we erase in place,
which agrees up to member order (none of the verified properties depend on
member order). -/

structure Binding where
  role : String
  members : List String
deriving DecidableEq

/-- Model of `iam.Policy.HasRole`: membership of `member` in the first binding whose
role is `role`. -/
def bindingsHasRole (member role : String) : List Binding → Bool
  | [] => false
  | b :: rest =>
    if b.role = role then decide (member ∈ b.members)
    else bindingsHasRole member role rest

/-- Model of `iam.Policy.Add`. -/
def bindingsAdd (member role : String) : List Binding → List Binding
  | [] => [⟨role, [member]⟩]
  | b :: rest =>
    if b.role = role then
      (if member ∈ b.members then b else ⟨b.role, b.members ++ [member]⟩) :: rest
    else b :: bindingsAdd member role rest

/-- Model of `iam.Policy.Remove`. -/
def bindingsRemove (member role : String) : List Binding → List Binding
  | [] => []
  | b :: rest =>
    if b.role = role then
      if member ∈ b.members then
        if b.members.erase member = [] then rest
        else ⟨b.role, b.members.erase member⟩ :: rest
      else b :: rest
    else b :: bindingsRemove member role rest

/-- Model of `CloudSQL.AddRoleBindingToGCSBucket` (`part_002`, 98-122): fetch the
policy, return unchanged without writing when the member already holds the
role, otherwise add the binding and write the policy back.  The boolean
records whether `SetPolicy` was invoked. -/
def AddRoleBindingToGCSBucket (p : List Binding) (member role : String) :
    List Binding × Bool :=
  if bindingsHasRole member role p then (p, false)
  else (bindingsAdd member role p, true)

/-- Model of `CloudSQL.RemoveRoleBindingToGCSBucket` (`part_002`, 125-149). -/
def RemoveRoleBindingToGCSBucket (p : List Binding) (member role : String) :
    List Binding × Bool :=
  if bindingsHasRole member role p then (bindingsRemove member role p, true)
  else (p, false)

/-- The member string built by both functions:
`fmt.Sprintf("serviceAccount:%s", sqlAdminSvcAccount)`. -/
def svcAcctMember (acct : String) : String := "serviceAccount:" ++ acct

/-- Sanity of a policy document: a role appears in at most one binding and
members are listed once per binding (true of actual IAM policies). -/
def PolicyWF (p : List Binding) : Prop :=
  (p.map Binding.role).Nodup ∧ ∀ b ∈ p, b.members.Nodup

/-- Total number of membership entries for `member` under `role` across the
whole policy. -/
def countRoleMember (p : List Binding) (role member : String) : Nat :=
  (p.map (fun b => if b.role = role then b.members.count member else 0)).sum

theorem bindingsHasRole_false_of_role_not_mem {r : String} {bs : List Binding}
    (h : r ∉ bs.map Binding.role) (m : String) :
    bindingsHasRole m r bs = false := by
  induction bs with
  | nil => rfl
  | cons b rest ih =>
    simp only [List.map_cons, List.mem_cons, not_or] at h
    simp only [bindingsHasRole]
    rw [if_neg (fun hr => h.1 hr.symm)]
    exact ih h.2

theorem bindingsHasRole_add (m r : String) (bs : List Binding) :
    bindingsHasRole m r (bindingsAdd m r bs) = true := by
  induction bs with
  | nil => simp [bindingsAdd, bindingsHasRole]
  | cons b rest ih =>
    by_cases hr : b.role = r
    · by_cases hm : m ∈ b.members
      · simp [bindingsAdd, bindingsHasRole, hr, hm]
      · simp [bindingsAdd, bindingsHasRole, hr, hm]
    · simp [bindingsAdd, bindingsHasRole, hr, ih]

theorem bindingsHasRole_add_other {r r2 : String} (hne : r ≠ r2)
    (m m2 : String) (bs : List Binding) :
    bindingsHasRole m r (bindingsAdd m2 r2 bs) = bindingsHasRole m r bs := by
  have hne2 : ¬r2 = r := fun h => hne h.symm
  induction bs with
  | nil =>
    simp only [bindingsAdd, bindingsHasRole]
    rw [if_neg hne2]
  | cons b rest ih =>
    simp only [bindingsAdd]
    by_cases hr : b.role = r2
    · have hbr : ¬b.role = r := fun h => hne2 (hr ▸ h)
      rw [if_pos hr]
      by_cases hm : m2 ∈ b.members
      · rw [if_pos hm]
      · rw [if_neg hm]
        simp only [bindingsHasRole]
        rw [if_neg hbr, if_neg hbr]
    · rw [if_neg hr]
      simp only [bindingsHasRole]
      by_cases hbr : b.role = r
      · rw [if_pos hbr, if_pos hbr]
      · rw [if_neg hbr, if_neg hbr]
        exact ih

theorem bindingsHasRole_remove_other {r r2 : String} (hne : r ≠ r2)
    (m m2 : String) (bs : List Binding) :
    bindingsHasRole m r (bindingsRemove m2 r2 bs) = bindingsHasRole m r bs := by
  have hne2 : ¬r2 = r := fun h => hne h.symm
  induction bs with
  | nil => rfl
  | cons b rest ih =>
    simp only [bindingsRemove]
    by_cases hr : b.role = r2
    · have hbr : ¬b.role = r := fun h => hne2 (hr ▸ h)
      rw [if_pos hr]
      by_cases hm : m2 ∈ b.members
      · rw [if_pos hm]
        by_cases he : b.members.erase m2 = []
        · rw [if_pos he]
          simp only [bindingsHasRole]
          rw [if_neg hbr]
        · rw [if_neg he]
          simp only [bindingsHasRole]
          rw [if_neg hbr, if_neg hbr]
      · rw [if_neg hm]
    · rw [if_neg hr]
      simp only [bindingsHasRole]
      by_cases hbr : b.role = r
      · rw [if_pos hbr, if_pos hbr]
      · rw [if_neg hbr, if_neg hbr]
        exact ih

theorem bindingsHasRole_remove (m r : String) :
    ∀ bs : List Binding, (bs.map Binding.role).Nodup →
      (∀ b ∈ bs, b.members.Nodup) →
      bindingsHasRole m r (bindingsRemove m r bs) = false := by
  intro bs
  induction bs with
  | nil => intro _ _; rfl
  | cons b rest ih =>
    intro hroles hmem
    simp only [List.map_cons, List.nodup_cons] at hroles
    simp only [bindingsRemove]
    by_cases hr : b.role = r
    · rw [if_pos hr]
      by_cases hm : m ∈ b.members
      · rw [if_pos hm]
        by_cases he : b.members.erase m = []
        · rw [if_pos he]
          exact bindingsHasRole_false_of_role_not_mem (hr ▸ hroles.1) m
        · rw [if_neg he]
          have hnm : m ∉ b.members.erase m := by
            intro hc
            exact absurd
              ((hmem b (List.mem_cons_self b rest)).mem_erase_iff.mp hc).1
              (by simp)
          simp only [bindingsHasRole]
          rw [if_pos hr]
          simp [hnm]
      · rw [if_neg hm]
        simp only [bindingsHasRole]
        rw [if_pos hr]
        simp [hm]
    · rw [if_neg hr]
      simp only [bindingsHasRole]
      rw [if_neg hr]
      exact ih hroles.2 (fun b2 hb2 => hmem b2 (List.mem_cons_of_mem b hb2))

theorem bindingsAdd_roles (m r : String) (bs : List Binding) :
    (bindingsAdd m r bs).map Binding.role = bs.map Binding.role
      ∨ (bindingsAdd m r bs).map Binding.role = bs.map Binding.role ++ [r] := by
  induction bs with
  | nil => right; rfl
  | cons b rest ih =>
    by_cases hr : b.role = r
    · left
      by_cases hm : m ∈ b.members
      · simp [bindingsAdd, hr, hm]
      · simp [bindingsAdd, hr, hm]
    · rcases ih with ih | ih
      · left; simp [bindingsAdd, hr, ih]
      · right; simp [bindingsAdd, hr, ih]

theorem bindingsAdd_roles_nodup {bs : List Binding}
    (h : (bs.map Binding.role).Nodup) (m r : String) :
    ((bindingsAdd m r bs).map Binding.role).Nodup := by
  induction bs with
  | nil => simp [bindingsAdd]
  | cons b rest ih =>
    simp only [bindingsAdd]
    by_cases hr : b.role = r
    · rw [if_pos hr]
      by_cases hm : m ∈ b.members
      · rw [if_pos hm]; exact h
      · rw [if_neg hm]; exact h
    · rw [if_neg hr]
      simp only [List.map_cons, List.nodup_cons] at h ⊢
      refine ⟨?_, ih h.2⟩
      rcases bindingsAdd_roles m r rest with hro | hro
      · rw [hro]; exact h.1
      · rw [hro]
        simp only [List.mem_append, List.mem_singleton, not_or]
        exact ⟨h.1, hr⟩

theorem bindingsAdd_members_nodup {bs : List Binding}
    (hmem : ∀ b ∈ bs, b.members.Nodup) (m r : String) :
    ∀ b2 ∈ bindingsAdd m r bs, b2.members.Nodup := by
  induction bs with
  | nil =>
    intro b2 hb2
    simp only [bindingsAdd, List.mem_singleton] at hb2
    subst hb2
    simp
  | cons b rest ih =>
    intro b2 hb2
    simp only [bindingsAdd] at hb2
    by_cases hr : b.role = r
    · rw [if_pos hr] at hb2
      by_cases hm : m ∈ b.members
      · rw [if_pos hm] at hb2
        exact hmem b2 hb2
      · rw [if_neg hm] at hb2
        rcases List.mem_cons.mp hb2 with hb2 | hb2
        · subst hb2
          have hbn := hmem b (List.mem_cons_self b rest)
          simp [List.nodup_append, hbn, hm]
        · exact hmem b2 (List.mem_cons_of_mem b hb2)
    · rw [if_neg hr] at hb2
      rcases List.mem_cons.mp hb2 with hb2 | hb2
      · rw [hb2]; exact hmem b (List.mem_cons_self b rest)
      · exact ih (fun b3 hb3 => hmem b3 (List.mem_cons_of_mem b hb3)) b2 hb2

theorem bindingsAdd_wf {bs : List Binding} (hwf : PolicyWF bs) (m r : String) :
    PolicyWF (bindingsAdd m r bs) :=
  ⟨bindingsAdd_roles_nodup hwf.1 m r, bindingsAdd_members_nodup hwf.2 m r⟩

theorem bindingsRemove_roles_sublist (m r : String) (bs : List Binding) :
    List.Sublist ((bindingsRemove m r bs).map Binding.role)
      (bs.map Binding.role) := by
  induction bs with
  | nil => simp [bindingsRemove]
  | cons b rest ih =>
    simp only [bindingsRemove]
    by_cases hr : b.role = r
    · rw [if_pos hr]
      by_cases hm : m ∈ b.members
      · rw [if_pos hm]
        by_cases he : b.members.erase m = []
        · rw [if_pos he]
          simp only [List.map_cons]
          exact List.sublist_cons_self b.role (rest.map Binding.role)
        · rw [if_neg he]
          simp only [List.map_cons]
          exact List.Sublist.cons₂ b.role (List.Sublist.refl _)
      · rw [if_neg hm]
    · rw [if_neg hr]
      simp only [List.map_cons]
      exact List.Sublist.cons₂ b.role ih

theorem bindingsRemove_members_nodup {bs : List Binding}
    (hmem : ∀ b ∈ bs, b.members.Nodup) (m r : String) :
    ∀ b2 ∈ bindingsRemove m r bs, b2.members.Nodup := by
  induction bs with
  | nil => intro b2 hb2; simp [bindingsRemove] at hb2
  | cons b rest ih =>
    intro b2 hb2
    simp only [bindingsRemove] at hb2
    by_cases hr : b.role = r
    · rw [if_pos hr] at hb2
      by_cases hm : m ∈ b.members
      · rw [if_pos hm] at hb2
        by_cases he : b.members.erase m = []
        · rw [if_pos he] at hb2
          exact hmem b2 (List.mem_cons_of_mem b hb2)
        · rw [if_neg he] at hb2
          rcases List.mem_cons.mp hb2 with hb2 | hb2
          · subst hb2
            exact (hmem b (List.mem_cons_self b rest)).erase m
          · exact hmem b2 (List.mem_cons_of_mem b hb2)
      · rw [if_neg hm] at hb2
        exact hmem b2 hb2
    · rw [if_neg hr] at hb2
      rcases List.mem_cons.mp hb2 with hb2 | hb2
      · rw [hb2]; exact hmem b (List.mem_cons_self b rest)
      · exact ih (fun b3 hb3 => hmem b3 (List.mem_cons_of_mem b hb3)) b2 hb2

theorem bindingsRemove_wf {bs : List Binding} (hwf : PolicyWF bs) (m r : String) :
    PolicyWF (bindingsRemove m r bs) :=
  ⟨hwf.1.sublist (bindingsRemove_roles_sublist m r bs),
    bindingsRemove_members_nodup hwf.2 m r⟩

theorem countRoleMember_zero_of_role_not_mem {r : String} {bs : List Binding}
    (h : r ∉ bs.map Binding.role) (m : String) :
    countRoleMember bs r m = 0 := by
  induction bs with
  | nil => rfl
  | cons b rest ih =>
    simp only [List.map_cons, List.mem_cons, not_or] at h
    simp only [countRoleMember, List.map_cons, List.sum_cons]
    rw [if_neg (fun hr => h.1 hr.symm)]
    simpa [countRoleMember] using ih h.2

theorem countRoleMember_cons (b : Binding) (rest : List Binding)
    (r m : String) :
    countRoleMember (b :: rest) r m
      = (if b.role = r then b.members.count m else 0)
          + countRoleMember rest r m := by
  simp [countRoleMember]

theorem countRoleMember_add_of_not_hasRole (m r : String) :
    ∀ bs : List Binding, (bs.map Binding.role).Nodup →
      bindingsHasRole m r bs = false →
      countRoleMember (bindingsAdd m r bs) r m = 1 := by
  intro bs
  induction bs with
  | nil => intro _ _; simp [bindingsAdd, countRoleMember]
  | cons b rest ih =>
    intro hroles h
    simp only [List.map_cons, List.nodup_cons] at hroles
    simp only [bindingsAdd]
    by_cases hr : b.role = r
    · have hm : m ∉ b.members := by
        simp only [bindingsHasRole] at h
        rw [if_pos hr] at h
        simpa using h
      rw [if_pos hr, if_neg hm, countRoleMember_cons]
      show (if b.role = r then (b.members ++ [m]).count m else 0)
          + countRoleMember rest r m = 1
      rw [if_pos hr, List.count_append, List.count_eq_zero_of_not_mem hm,
        countRoleMember_zero_of_role_not_mem (hr ▸ hroles.1) m]
      simp
    · have h2 : bindingsHasRole m r rest = false := by
        simp only [bindingsHasRole] at h
        rwa [if_neg hr] at h
      rw [if_neg hr, countRoleMember_cons, if_neg hr, ih hroles.2 h2]

theorem countRoleMember_one_of_hasRole (m r : String) :
    ∀ bs : List Binding, (bs.map Binding.role).Nodup →
      (∀ b ∈ bs, b.members.Nodup) →
      bindingsHasRole m r bs = true →
      countRoleMember bs r m = 1 := by
  intro bs
  induction bs with
  | nil => intro _ _ h; simp [bindingsHasRole] at h
  | cons b rest ih =>
    intro hroles hmem h
    simp only [List.map_cons, List.nodup_cons] at hroles
    by_cases hr : b.role = r
    · have hm : m ∈ b.members := by
        simp only [bindingsHasRole] at h
        rw [if_pos hr] at h
        simpa using h
      rw [countRoleMember_cons, if_pos hr,
        List.count_eq_one_of_mem (hmem b (List.mem_cons_self b rest)) hm,
        countRoleMember_zero_of_role_not_mem (hr ▸ hroles.1) m]
    · have h2 : bindingsHasRole m r rest = true := by
        simp only [bindingsHasRole] at h
        rwa [if_neg hr] at h
      rw [countRoleMember_cons, if_neg hr,
        ih hroles.2 (fun b2 hb2 => hmem b2 (List.mem_cons_of_mem b hb2)) h2]

theorem addRole_hasRole (p : List Binding) (m r : String) :
    bindingsHasRole m r (AddRoleBindingToGCSBucket p m r).1 = true := by
  unfold AddRoleBindingToGCSBucket
  by_cases h : bindingsHasRole m r p
  · rw [if_pos h]; exact h
  · rw [if_neg h]; exact bindingsHasRole_add m r p

theorem addRole_other {r r2 : String} (hne : r ≠ r2) (p : List Binding)
    (m m2 : String) :
    bindingsHasRole m r (AddRoleBindingToGCSBucket p m2 r2).1
      = bindingsHasRole m r p := by
  unfold AddRoleBindingToGCSBucket
  by_cases h : bindingsHasRole m2 r2 p
  · rw [if_pos h]
  · rw [if_neg h]; exact bindingsHasRole_add_other hne m m2 p

theorem removeRole_not_hasRole {p : List Binding} (hwf : PolicyWF p)
    (m r : String) :
    bindingsHasRole m r (RemoveRoleBindingToGCSBucket p m r).1 = false := by
  unfold RemoveRoleBindingToGCSBucket
  by_cases h : bindingsHasRole m r p
  · rw [if_pos h]; exact bindingsHasRole_remove m r p hwf.1 hwf.2
  · rw [if_neg h]
    simpa using h

theorem removeRole_other {r r2 : String} (hne : r ≠ r2) (p : List Binding)
    (m m2 : String) :
    bindingsHasRole m r (RemoveRoleBindingToGCSBucket p m2 r2).1
      = bindingsHasRole m r p := by
  unfold RemoveRoleBindingToGCSBucket
  by_cases h : bindingsHasRole m2 r2 p
  · rw [if_pos h]; exact bindingsHasRole_remove_other hne m m2 p
  · rw [if_neg h]

theorem addRole_wf {p : List Binding} (hwf : PolicyWF p) (m r : String) :
    PolicyWF (AddRoleBindingToGCSBucket p m r).1 := by
  unfold AddRoleBindingToGCSBucket
  by_cases h : bindingsHasRole m r p
  · rw [if_pos h]; exact hwf
  · rw [if_neg h]; exact bindingsAdd_wf hwf m r

theorem removeRole_wf {p : List Binding} (hwf : PolicyWF p) (m r : String) :
    PolicyWF (RemoveRoleBindingToGCSBucket p m r).1 := by
  unfold RemoveRoleBindingToGCSBucket
  by_cases h : bindingsHasRole m r p
  · rw [if_pos h]; exact bindingsRemove_wf hwf m r
  · rw [if_neg h]; exact hwf

/-! ## C6: idempotence of the role grant -/

/-- C6. Granting is idempotent.  If the principal already holds the role,
`AddRoleBindingToGCSBucket` returns the policy unchanged and performs no
write-back; and on a well-formed policy, granting the same
(role, principal) twice leaves the policy with exactly one membership entry
for that principal under that role, the second grant again being a no-op
without write-back. -/
theorem addRoleBinding_idempotent (p : List Binding) (m r : String)
    (hwf : PolicyWF p) :
    (bindingsHasRole m r p = true → AddRoleBindingToGCSBucket p m r = (p, false))
      ∧ AddRoleBindingToGCSBucket (AddRoleBindingToGCSBucket p m r).1 m r
          = ((AddRoleBindingToGCSBucket p m r).1, false)
      ∧ countRoleMember (AddRoleBindingToGCSBucket p m r).1 r m = 1 := by
  refine ⟨fun h => ?_, ?_, ?_⟩
  · unfold AddRoleBindingToGCSBucket
    rw [if_pos h]
  · have hq := addRole_hasRole p m r
    generalize hqq : (AddRoleBindingToGCSBucket p m r).1 = q at hq ⊢
    unfold AddRoleBindingToGCSBucket
    rw [if_pos hq]
  · unfold AddRoleBindingToGCSBucket
    by_cases h : bindingsHasRole m r p
    · rw [if_pos h]
      exact countRoleMember_one_of_hasRole m r p hwf.1 hwf.2 h
    · rw [if_neg h]
      exact countRoleMember_add_of_not_hasRole m r p hwf.1 (by simpa using h)

/-- C6 (witness). The idempotence theorem applied to concrete policies: a
grant to a principal that already holds the role is returned unchanged with
no write-back, and a double grant on a policy where another principal holds
the role leaves exactly one membership entry. -/
theorem addRoleBinding_idempotent_witness :
    AddRoleBindingToGCSBucket
          [⟨"roles/storage.objectViewer", ["serviceAccount:sa@x"]⟩]
          "serviceAccount:sa@x" "roles/storage.objectViewer"
        = ([⟨"roles/storage.objectViewer", ["serviceAccount:sa@x"]⟩], false)
      ∧ AddRoleBindingToGCSBucket
            (AddRoleBindingToGCSBucket
              [⟨"roles/storage.objectViewer", ["serviceAccount:other@x"]⟩]
              "serviceAccount:sa@x" "roles/storage.objectViewer").1
            "serviceAccount:sa@x" "roles/storage.objectViewer"
          = ((AddRoleBindingToGCSBucket
              [⟨"roles/storage.objectViewer", ["serviceAccount:other@x"]⟩]
              "serviceAccount:sa@x" "roles/storage.objectViewer").1, false)
      ∧ countRoleMember
            (AddRoleBindingToGCSBucket
              [⟨"roles/storage.objectViewer", ["serviceAccount:other@x"]⟩]
              "serviceAccount:sa@x" "roles/storage.objectViewer").1
            "roles/storage.objectViewer" "serviceAccount:sa@x" = 1 :=
  ⟨(addRoleBinding_idempotent
      [⟨"roles/storage.objectViewer", ["serviceAccount:sa@x"]⟩]
      "serviceAccount:sa@x" "roles/storage.objectViewer"
      ⟨by simp, by intro b hb; simp only [List.mem_singleton] at hb; rw [hb]; simp⟩).1
      (by decide),
    (addRoleBinding_idempotent
      [⟨"roles/storage.objectViewer", ["serviceAccount:other@x"]⟩]
      "serviceAccount:sa@x" "roles/storage.objectViewer"
      ⟨by simp, by intro b hb; simp only [List.mem_singleton] at hb; rw [hb]; simp⟩).2.1,
    (addRoleBinding_idempotent
      [⟨"roles/storage.objectViewer", ["serviceAccount:other@x"]⟩]
      "serviceAccount:sa@x" "roles/storage.objectViewer"
      ⟨by simp, by intro b hb; simp only [List.mem_singleton] at hb; rw [hb]; simp⟩).2.2⟩

/-! ## C5: temporary-grant bracketing in `Backup` (`pkg/backup/backup.go`)

Per-instance IAM flow of `Backup`: when IAM bindings are requested, grant
`objectCreator` and `objectViewer` to the instance service account; when the
temporary option is set, a deferred block removes both bindings again and
runs on every exit of the function, error or not.  The later steps (user
export, optional statistics export, database export) do not touch the
policy; their outcomes are inputs of the model so that every early-return
path is covered. -/

def objectCreatorRole : String := "roles/storage.objectCreator"

def objectViewerRole : String := "roles/storage.objectViewer"

def legacyBucketReaderRole : String := "roles/storage.legacyBucketReader"

/-- Outcomes of the bracketed steps of one instance backup, as produced by
the remote services. -/
structure BackupStepOutcomes where
  userExport : Except String (List String)
  statsExport : Except String Unit
  dbExport : Except String (List String)

/-- The result value of the bracketed body of `Backup` for one instance:
user export, then statistics export when `ExportStats` is set, then the
database export; the first error aborts the remaining steps. -/
def backupBody (exportStats : Bool) (steps : BackupStepOutcomes) :
    Except String (List String) :=
  match steps.userExport with
  | .error e => .error e
  | .ok _ =>
    match (if exportStats then steps.statsExport else Except.ok ()) with
    | .error e => .error e
    | .ok _ => steps.dbExport

/-- IAM bracketing of `Backup` for one instance (`backup.go`, 66-129):
grants run when either binding option is set, the deferred revocation of
both roles runs when the temporary option is set — also on the error exits
of the body. -/
def backupInstance (ensure temp exportStats : Bool) (member : String)
    (steps : BackupStepOutcomes) (p0 : List Binding) :
    Except String (List String) × List Binding :=
  if ensure || temp then
    let p2 := (AddRoleBindingToGCSBucket
        (AddRoleBindingToGCSBucket p0 member objectCreatorRole).1
        member objectViewerRole).1
    if temp then
      (backupBody exportStats steps,
        (RemoveRoleBindingToGCSBucket
          (RemoveRoleBindingToGCSBucket p2 member objectCreatorRole).1
          member objectViewerRole).1)
    else (backupBody exportStats steps, p2)
  else (backupBody exportStats steps, p0)

/-- C5. With the temporary-bindings option set, the `objectCreator` and
`objectViewer` bindings granted to the instance service account are absent
from the policy on every exit of the backup — whatever the outcomes of the
user export, statistics export and database export steps, including all
early error returns. -/
theorem backup_temp_bindings_revoked (ensure exportStats : Bool)
    (member : String) (steps : BackupStepOutcomes) (p0 : List Binding)
    (hwf : PolicyWF p0) :
    bindingsHasRole member objectCreatorRole
        (backupInstance ensure true exportStats member steps p0).2 = false
      ∧ bindingsHasRole member objectViewerRole
        (backupInstance ensure true exportStats member steps p0).2 = false := by
  have hne : objectViewerRole ≠ objectCreatorRole := by decide
  unfold backupInstance
  rw [if_pos (by simp), if_pos rfl]
  dsimp only
  have hwf2 : PolicyWF (AddRoleBindingToGCSBucket
      (AddRoleBindingToGCSBucket p0 member objectCreatorRole).1
      member objectViewerRole).1 :=
    addRole_wf (addRole_wf hwf member objectCreatorRole) member objectViewerRole
  have hwf3 : PolicyWF (RemoveRoleBindingToGCSBucket
      (AddRoleBindingToGCSBucket
        (AddRoleBindingToGCSBucket p0 member objectCreatorRole).1
        member objectViewerRole).1
      member objectCreatorRole).1 :=
    removeRole_wf hwf2 member objectCreatorRole
  constructor
  · rw [removeRole_other (Ne.symm hne) _ member member]
    exact removeRole_not_hasRole hwf2 member objectCreatorRole
  · exact removeRole_not_hasRole hwf3 member objectViewerRole

/-- C5 (witness). Revocation on the early-error exit caused by a failing
user export, starting from the empty policy. -/
theorem backup_temp_bindings_revoked_witness :
    bindingsHasRole "serviceAccount:sa@x" objectCreatorRole
        (backupInstance false true true "serviceAccount:sa@x"
          ⟨Except.error "user export failed", Except.ok (), Except.ok []⟩ []).2
        = false
      ∧ bindingsHasRole "serviceAccount:sa@x" objectViewerRole
        (backupInstance false true true "serviceAccount:sa@x"
          ⟨Except.error "user export failed", Except.ok (), Except.ok []⟩ []).2
        = false :=
  backup_temp_bindings_revoked false true "serviceAccount:sa@x"
    ⟨Except.error "user export failed", Except.ok (), Except.ok []⟩ []
    ⟨by simp, by intro b hb; simp at hb⟩

/-! ## C9: asymmetric bucket-permission bracketing in `Restore`
(`part_002`, 607-627) -/

/-- Bucket IAM bracketing of `Restore` around the import: grant
`legacyBucketReader` and `objectViewer` to the restore instance service
account; the deferred block — run on success and on failure of the import —
removes the `legacyBucketReader` binding and calls `Add` (not `Remove`) for
`objectViewer`, leaving that grant in place. -/
def restoreBucketBracket (member : String) (importOutcome : Except String Unit)
    (p0 : List Binding) : Except String Unit × List Binding :=
  let p2 := (AddRoleBindingToGCSBucket
      (AddRoleBindingToGCSBucket p0 member legacyBucketReaderRole).1
      member objectViewerRole).1
  let p4 := (AddRoleBindingToGCSBucket
      (RemoveRoleBindingToGCSBucket p2 member legacyBucketReaderRole).1
      member objectViewerRole).1
  (importOutcome, p4)

/-- C9. On every exit of the bracketed import work — success or failure
of the import — the `legacyBucketReader` binding granted to the restore
instance service account is gone from the final policy while the
`objectViewer` binding is still held: the cleanup is asymmetric. -/
theorem restore_bracket_asymmetric (member : String)
    (importOutcome : Except String Unit) (p0 : List Binding)
    (hwf : PolicyWF p0) :
    bindingsHasRole member legacyBucketReaderRole
        (restoreBucketBracket member importOutcome p0).2 = false
      ∧ bindingsHasRole member objectViewerRole
        (restoreBucketBracket member importOutcome p0).2 = true := by
  have hne : legacyBucketReaderRole ≠ objectViewerRole := by decide
  unfold restoreBucketBracket
  dsimp only
  have hwf2 : PolicyWF (AddRoleBindingToGCSBucket
      (AddRoleBindingToGCSBucket p0 member legacyBucketReaderRole).1
      member objectViewerRole).1 :=
    addRole_wf (addRole_wf hwf member legacyBucketReaderRole)
      member objectViewerRole
  constructor
  · rw [addRole_other hne _ member member]
    exact removeRole_not_hasRole hwf2 member legacyBucketReaderRole
  · exact addRole_hasRole _ member objectViewerRole

/-- C9 (witness). The asymmetric cleanup on a failing import, starting
from the empty policy. -/
theorem restore_bracket_asymmetric_witness :
    bindingsHasRole "serviceAccount:sa@x" legacyBucketReaderRole
        (restoreBucketBracket "serviceAccount:sa@x"
          (Except.error "import failed") []).2 = false
      ∧ bindingsHasRole "serviceAccount:sa@x" objectViewerRole
        (restoreBucketBracket "serviceAccount:sa@x"
          (Except.error "import failed") []).2 = true :=
  restore_bracket_asymmetric "serviceAccount:sa@x" (Except.error "import failed")
    [] ⟨by simp, by intro b hb; simp at hb⟩

/-! ## C2 and C8: `CloudSQL.WaitForSQLOperation` (`part_002`, 346-374)

The Go loop alternates, forever: a check of `ctx.Done()` (the shared
cancellation signal), then `time.Sleep(timeout)` followed by one
`Operations.Get` poll whose result is processed — an API error is returned,
a non-nil `op.Error` returns a failure carrying every reported message, the
status `DONE` returns success, anything else loops.

Embedding of time: one loop iteration is one unit.  `polls` is the sequence
of results the successive `Operations.Get` calls would return;
`cancelAfter` is the number of `ctx.Done()` checks that still read
not-done.  A cancellation signal firing during sleep number `k`
(zero-based) makes every check from number `k + 1` on read done, i.e.
`cancelAfter = k + 1`. -/

structure SQLOperation where
  name : String
  status : String
  opError : Option (List String)
deriving DecidableEq

inductive WaitResult
  | nilOp
  | apiError (e : String)
  | failed (msgs : List String)
  | success
  | timeout
  | pending
deriving DecidableEq

/-- The poll loop of `WaitForSQLOperation`.  Fuel `0` means the `ctx.Done()`
check at the top of the iteration reads done: the loop returns the timeout
error.  Exhausting `polls` while still running yields `.pending` (the real
loop would simply keep polling). -/
def waitLoop : Nat → List (Except String SQLOperation) → WaitResult
  | 0, _ => .timeout
  | _ + 1, [] => .pending
  | n + 1, p :: rest =>
    match p with
    | .error e => .apiError e
    | .ok op =>
      match op.opError with
      | some msgs => .failed msgs
      | none => if op.status = "DONE" then .success else waitLoop n rest

/-- Model of `CloudSQL.WaitForSQLOperation`: a nil operation handle fails
immediately; otherwise the poll loop runs. -/
def WaitForSQLOperation (cancelAfter : Nat) (op : Option SQLOperation)
    (polls : List (Except String SQLOperation)) : WaitResult :=
  match op with
  | none => .nilOp
  | some _ => waitLoop cancelAfter polls

theorem waitLoop_consume (pre : List SQLOperation)
    (h : ∀ o ∈ pre, o.opError = none ∧ o.status ≠ "DONE")
    (k : Nat) (rest : List (Except String SQLOperation)) :
    waitLoop (pre.length + k) (pre.map Except.ok ++ rest) = waitLoop k rest := by
  induction pre with
  | nil => simp
  | cons o pre ih =>
    have ho := h o (List.mem_cons_self o pre)
    simp only [List.length_cons, List.map_cons, List.cons_append]
    rw [show pre.length + 1 + k = (pre.length + k) + 1 from by omega]
    simp only [waitLoop, ho.1]
    rw [if_neg ho.2]
    exact ih (fun o2 ho2 => h o2 (List.mem_cons_of_mem o ho2))

theorem waitLoop_timeout : ∀ (n : Nat) (pre : List SQLOperation)
    (rest : List (Except String SQLOperation)), n ≤ pre.length →
    (∀ o ∈ pre, o.opError = none ∧ o.status ≠ "DONE") →
    waitLoop n (pre.map Except.ok ++ rest) = .timeout := by
  intro n
  induction n with
  | zero => intro pre rest _ _; rfl
  | succ n ih =>
    intro pre rest hlen h
    cases pre with
    | nil => simp at hlen
    | cons o pre =>
      have ho := h o (List.mem_cons_self o pre)
      simp only [List.map_cons, List.cons_append, waitLoop, ho.1]
      rw [if_neg ho.2]
      exact ih pre rest (by simpa using hlen)
        (fun o2 ho2 => h o2 (List.mem_cons_of_mem o ho2))

theorem waitLoop_success_inversion : ∀ (polls : List (Except String SQLOperation))
    (n : Nat), waitLoop n polls = .success →
    ∃ (pre : List SQLOperation) (fin : SQLOperation)
      (rest : List (Except String SQLOperation)),
      polls = pre.map Except.ok ++ Except.ok fin :: rest
        ∧ (∀ o ∈ pre, o.opError = none ∧ o.status ≠ "DONE")
        ∧ fin.opError = none ∧ fin.status = "DONE" ∧ pre.length < n := by
  intro polls
  induction polls with
  | nil =>
    intro n h
    cases n with
    | zero => simp [waitLoop] at h
    | succ n => simp [waitLoop] at h
  | cons p rest ih =>
    intro n h
    cases n with
    | zero => simp [waitLoop] at h
    | succ n =>
      cases p with
      | error e => simp [waitLoop] at h
      | ok o =>
        cases ho : o.opError with
        | some msgs => simp [waitLoop, ho] at h
        | none =>
          by_cases hs : o.status = "DONE"
          · exact ⟨[], o, rest, by simp, by simp, ho, hs, by simp⟩
          · have h2 : waitLoop n rest = .success := by
              simpa [waitLoop, ho, hs] using h
            obtain ⟨pre2, fin, rest2, heq, hnon, hfin1, hfin2, hlt⟩ := ih n h2
            exact ⟨o :: pre2, fin, rest2, by simp [heq],
              by
                intro o2 ho2
                rcases List.mem_cons.mp ho2 with ho2 | ho2
                · rw [ho2]; exact ⟨ho, hs⟩
                · exact hnon o2 ho2,
              hfin1, hfin2, by simp; omega⟩

/-- C2. Behaviour of `WaitForSQLOperation` on a non-nil handle, with the
shared context cancelled after `cancelAfter` loop-top checks:
(1) after any run of non-terminal polls that the deadline does not cut off,
a poll with terminal status and no error returns success;
(2) a poll carrying a non-nil error list returns the failure carrying
exactly the reported messages;
(3) when the deadline elapses before any decisive poll, the timeout error
is returned;
(4) conversely, success is returned only when the most recent processed
poll had terminal status `DONE` and no error, all earlier polls being
non-terminal and error-free. -/
theorem waitForSQLOperation_spec (cancelAfter : Nat) (op : SQLOperation) :
    (∀ (pre : List SQLOperation) (fin : SQLOperation)
        (rest : List (Except String SQLOperation)),
      (∀ o ∈ pre, o.opError = none ∧ o.status ≠ "DONE") →
      pre.length < cancelAfter → fin.opError = none → fin.status = "DONE" →
      WaitForSQLOperation cancelAfter (some op)
          (pre.map Except.ok ++ Except.ok fin :: rest) = .success)
  ∧ (∀ (pre : List SQLOperation) (fin : SQLOperation)
        (rest : List (Except String SQLOperation)) (msgs : List String),
      (∀ o ∈ pre, o.opError = none ∧ o.status ≠ "DONE") →
      pre.length < cancelAfter → fin.opError = some msgs →
      WaitForSQLOperation cancelAfter (some op)
          (pre.map Except.ok ++ Except.ok fin :: rest) = .failed msgs)
  ∧ (∀ (pre : List SQLOperation) (rest : List (Except String SQLOperation)),
      (∀ o ∈ pre, o.opError = none ∧ o.status ≠ "DONE") →
      cancelAfter ≤ pre.length →
      WaitForSQLOperation cancelAfter (some op)
          (pre.map Except.ok ++ rest) = .timeout)
  ∧ (∀ polls : List (Except String SQLOperation),
      WaitForSQLOperation cancelAfter (some op) polls = .success →
      ∃ (pre : List SQLOperation) (fin : SQLOperation)
        (rest : List (Except String SQLOperation)),
        polls = pre.map Except.ok ++ Except.ok fin :: rest
          ∧ (∀ o ∈ pre, o.opError = none ∧ o.status ≠ "DONE")
          ∧ fin.opError = none ∧ fin.status = "DONE"
          ∧ pre.length < cancelAfter) := by
  refine ⟨?_, ?_, ?_, ?_⟩
  · intro pre fin rest hpre hlt hfe hfs
    obtain ⟨k, hk⟩ : ∃ k, cancelAfter = pre.length + (k + 1) :=
      ⟨cancelAfter - pre.length - 1, by omega⟩
    show waitLoop cancelAfter _ = _
    rw [hk, waitLoop_consume pre hpre]
    simp [waitLoop, hfe, hfs]
  · intro pre fin rest msgs hpre hlt hfe
    obtain ⟨k, hk⟩ : ∃ k, cancelAfter = pre.length + (k + 1) :=
      ⟨cancelAfter - pre.length - 1, by omega⟩
    show waitLoop cancelAfter _ = _
    rw [hk, waitLoop_consume pre hpre]
    simp [waitLoop, hfe]
  · intro pre rest hpre hle
    exact waitLoop_timeout cancelAfter pre rest hle hpre
  · intro polls h
    exact waitLoop_success_inversion polls cancelAfter h

/-- C2 (witness). The three outcomes at concrete poll sequences: one
pending poll then `DONE` with deadline ahead; an errored poll; and a
deadline elapsing over pending polls. -/
theorem waitForSQLOperation_spec_witness :
    WaitForSQLOperation 3 (some ⟨"op1", "PENDING", none⟩)
        [Except.ok ⟨"op1", "PENDING", none⟩, Except.ok ⟨"op1", "DONE", none⟩]
        = .success
  ∧ WaitForSQLOperation 3 (some ⟨"op1", "PENDING", none⟩)
        [Except.ok ⟨"op1", "PENDING", none⟩,
          Except.ok ⟨"op1", "RUNNING", some ["disk full", "quota"]⟩]
        = .failed ["disk full", "quota"]
  ∧ WaitForSQLOperation 2 (some ⟨"op1", "PENDING", none⟩)
        [Except.ok ⟨"op1", "PENDING", none⟩, Except.ok ⟨"op1", "PENDING", none⟩]
        = .timeout := by
  refine ⟨?_, ?_, ?_⟩
  · exact (waitForSQLOperation_spec 3 ⟨"op1", "PENDING", none⟩).1
      [⟨"op1", "PENDING", none⟩] ⟨"op1", "DONE", none⟩ []
      (by decide) (by decide) rfl rfl
  · exact (waitForSQLOperation_spec 3 ⟨"op1", "PENDING", none⟩).2.1
      [⟨"op1", "PENDING", none⟩] ⟨"op1", "RUNNING", some ["disk full", "quota"]⟩ []
      ["disk full", "quota"]
      (by decide) (by decide) rfl
  · exact (waitForSQLOperation_spec 2 ⟨"op1", "PENDING", none⟩).2.2.1
      [⟨"op1", "PENDING", none⟩, ⟨"op1", "PENDING", none⟩] []
      (by decide) (by decide)

/-- C8 (counterexample). The cancellation signal fires during the very
first sleep (`cancelAfter = 1`: every `ctx.Done()` check after the first
reads done), yet the wait does not return the timeout error promptly: the
sleep completes, the poll issued after it reports `DONE`, and the wait
returns success. -/
theorem wait_cancel_during_sleep_not_timeout :
    WaitForSQLOperation 1 (some ⟨"op1", "PENDING", none⟩)
        [Except.ok ⟨"op1", "DONE", none⟩] = .success
      ∧ WaitResult.success ≠ WaitResult.timeout := by
  exact ⟨rfl, by decide⟩

/-- C8 (amended). The wait observes cancellation only at the check at
the top of each iteration.  If the signal fires during sleep number `k`
(after `k` checks passed and `k` non-decisive polls), the current sleep and
poll complete and are processed normally — a terminal error-free poll still
returns success, a poll with errors still returns the failure — and the
timeout error is returned only at the next loop-top check, when that poll
was not decisive. -/
theorem wait_cancel_observed_at_loop_top (k : Nat) (op : SQLOperation)
    (pre : List SQLOperation) (hlen : pre.length = k)
    (hpre : ∀ o ∈ pre, o.opError = none ∧ o.status ≠ "DONE")
    (p : Except String SQLOperation)
    (rest : List (Except String SQLOperation)) :
    WaitForSQLOperation (k + 1) (some op) (pre.map Except.ok ++ p :: rest)
        = waitLoop 1 (p :: rest)
  ∧ (∀ o, p = Except.ok o → o.opError = none → o.status = "DONE" →
      WaitForSQLOperation (k + 1) (some op) (pre.map Except.ok ++ p :: rest)
        = .success)
  ∧ (∀ o, p = Except.ok o → o.opError = none → o.status ≠ "DONE" →
      WaitForSQLOperation (k + 1) (some op) (pre.map Except.ok ++ p :: rest)
        = .timeout) := by
  have hmain : WaitForSQLOperation (k + 1) (some op)
      (pre.map Except.ok ++ p :: rest) = waitLoop 1 (p :: rest) := by
    show waitLoop (k + 1) _ = _
    rw [← hlen, waitLoop_consume pre hpre]
  refine ⟨hmain, ?_, ?_⟩
  · intro o hp ho hs
    rw [hmain, hp]
    simp [waitLoop, ho, hs]
  · intro o hp ho hs
    rw [hmain, hp]
    simp only [waitLoop, ho]
    rw [if_neg hs]

/-- C8 (amended, witness). The amended statement at `k = 0`: the signal
fires during the first sleep and the poll after it is still processed — in
one instance it returns success, in the other the timeout is only seen
after the full sleep-and-poll. -/
theorem wait_cancel_observed_at_loop_top_witness :
    WaitForSQLOperation 1 (some ⟨"op1", "PENDING", none⟩)
        [Except.ok ⟨"op1", "DONE", none⟩]
      = waitLoop 1 [Except.ok ⟨"op1", "DONE", none⟩] :=
  (wait_cancel_observed_at_loop_top 0 ⟨"op1", "PENDING", none⟩ [] rfl
    (by intro o ho; simp at ho)
    (Except.ok ⟨"op1", "DONE", none⟩) []).1

/-! ## C3 and C4: statistics validation inside `Restore` (`part_002`, 690-703)

The Go block iterates `for key, value := range stats` — the freshly
computed post-restore statistics — and looks each key up in `statsBackup`,
the decoded backup artifact.  A key absent from the backup returns the hard
error `stats not found` at once; a row-count difference appends one record
to `validationErrors`; after the loop a non-empty list is returned joined
as one error.  A statistics artifact is a finite map from qualified table
name to `CloudSQLStatistic`; we embed it as an association list in
iteration order (Go map iteration order is arbitrary, and none of the
verified statements depend on it). -/

structure CloudSQLStatistic where
  fullTableName : String
  tableSizeBytes : Int
  tableSizeBytesWithoutIndexes : Int
  totalSizeBytes : Int
  rowCount : Int
deriving DecidableEq

abbrev Stats := List (String × CloudSQLStatistic)

/-- One collected row-count mismatch: the message
`row count mismatch key: %s, value: %d, backup: %d` carries the table key,
the fresh (post-restore) count and the backup count. -/
structure Mismatch where
  key : String
  value : Int
  backup : Int
deriving DecidableEq

inductive RestoreValidation
  | ok
  | statsNotFound (key : String)
  | mismatches (errs : List Mismatch)
deriving DecidableEq

/-- The validation loop with its `validationErrors` accumulator. -/
def validateStatsAux : Stats → Stats → List Mismatch → RestoreValidation
  | [], _, acc => if acc = [] then .ok else .mismatches acc
  | (key, value) :: rest, statsBackup, acc =>
    match statsBackup.lookup key with
    | none => .statsNotFound key
    | some b =>
      if value.rowCount ≠ b.rowCount then
        validateStatsAux rest statsBackup (acc ++ [⟨key, value.rowCount, b.rowCount⟩])
      else validateStatsAux rest statsBackup acc

/-- The statistics-validation block of `Restore`, applied to the fresh
post-restore statistics and the decoded backup statistics. -/
def validateStats (stats statsBackup : Stats) : RestoreValidation :=
  validateStatsAux stats statsBackup []

/-- All row-count mismatches, one record per fresh table whose backup entry
disagrees. -/
def mismatchList (stats statsBackup : Stats) : List Mismatch :=
  stats.filterMap (fun kv =>
    match statsBackup.lookup kv.1 with
    | none => none
    | some b =>
      if kv.2.rowCount ≠ b.rowCount then some ⟨kv.1, kv.2.rowCount, b.rowCount⟩
      else none)

theorem validateStatsAux_all_found :
    ∀ (stats statsBackup : Stats) (acc : List Mismatch),
      (∀ kv ∈ stats, (statsBackup.lookup kv.1).isSome) →
      validateStatsAux stats statsBackup acc
        = (if acc ++ mismatchList stats statsBackup = [] then .ok
           else .mismatches (acc ++ mismatchList stats statsBackup)) := by
  intro stats
  induction stats with
  | nil => intro statsBackup acc _; simp [validateStatsAux, mismatchList]
  | cons kv rest ih =>
    intro statsBackup acc hall
    obtain ⟨key, value⟩ := kv
    obtain ⟨b, hb⟩ : ∃ b, statsBackup.lookup key = some b := by
      have := hall (key, value) (List.mem_cons_self _ rest)
      cases h : statsBackup.lookup key with
      | none => rw [h] at this; simp at this
      | some b => exact ⟨b, rfl⟩
    have hrest : ∀ kv2 ∈ rest, (statsBackup.lookup kv2.1).isSome :=
      fun kv2 h2 => hall kv2 (List.mem_cons_of_mem _ h2)
    simp only [validateStatsAux, hb]
    by_cases hne : value.rowCount ≠ b.rowCount
    · rw [if_pos hne, ih statsBackup _ hrest]
      have hml : mismatchList ((key, value) :: rest) statsBackup
          = ⟨key, value.rowCount, b.rowCount⟩ :: mismatchList rest statsBackup := by
        simp only [mismatchList, List.filterMap_cons, hb]
        rw [if_pos hne]
      rw [hml]
      simp [List.append_assoc]
    · rw [if_neg hne, ih statsBackup _ hrest]
      have hml : mismatchList ((key, value) :: rest) statsBackup
          = mismatchList rest statsBackup := by
        simp only [mismatchList, List.filterMap_cons, hb]
        rw [if_neg hne]
      rw [hml]

/-- C4. When every fresh table has an entry in the backup statistics
(so the hard missing-entry error does not fire), the validation collects a
mismatch record — table key, post-restore count, backup count — for every
fresh table whose row counts disagree, without stopping at the first, and
returns them together as the aggregated `mismatches` error; when all
compared row counts agree it returns `ok`. -/
theorem validateStats_mismatch_aggregation (stats statsBackup : Stats)
    (hall : ∀ kv ∈ stats, (statsBackup.lookup kv.1).isSome) :
    validateStats stats statsBackup
        = (if mismatchList stats statsBackup = [] then .ok
           else .mismatches (mismatchList stats statsBackup))
      ∧ (∀ kv ∈ stats, ∀ b, statsBackup.lookup kv.1 = some b →
          kv.2.rowCount ≠ b.rowCount →
          Mismatch.mk kv.1 kv.2.rowCount b.rowCount
            ∈ mismatchList stats statsBackup) := by
  constructor
  · have h := validateStatsAux_all_found stats statsBackup [] hall
    simpa [validateStats] using h
  · intro kv hkv b hb hne
    refine List.mem_filterMap.mpr ⟨kv, hkv, ?_⟩
    simp only [hb]
    rw [if_pos hne]

/-- C4 (witness). The spec example: backup row count 100 versus
post-restore 99 for `public.orders` produces exactly the aggregated
mismatch (and the matching table `public.users` produces none). -/
theorem validateStats_mismatch_aggregation_witness :
    validateStats
        [("public.orders", ⟨"public.orders", 0, 0, 0, 99⟩),
          ("public.users", ⟨"public.users", 0, 0, 0, 7⟩)]
        [("public.orders", ⟨"public.orders", 0, 0, 0, 100⟩),
          ("public.users", ⟨"public.users", 0, 0, 0, 7⟩)]
      = .mismatches [⟨"public.orders", 99, 100⟩] := by
  rw [(validateStats_mismatch_aggregation
    [("public.orders", ⟨"public.orders", 0, 0, 0, 99⟩),
      ("public.users", ⟨"public.users", 0, 0, 0, 7⟩)]
    [("public.orders", ⟨"public.orders", 0, 0, 0, 100⟩),
      ("public.users", ⟨"public.users", 0, 0, 0, 7⟩)]
    (by decide)).1]
  decide

theorem validateStatsAux_notFound_exists :
    ∀ (stats statsBackup : Stats) (acc : List Mismatch),
      (∃ kv ∈ stats, statsBackup.lookup kv.1 = none) →
      ∃ k, validateStatsAux stats statsBackup acc = .statsNotFound k
        ∧ statsBackup.lookup k = none ∧ k ∈ stats.map Prod.fst := by
  intro stats
  induction stats with
  | nil => intro statsBackup acc h; simp at h
  | cons kv rest ih =>
    intro statsBackup acc h
    obtain ⟨key, value⟩ := kv
    cases hk : statsBackup.lookup key with
    | none =>
      exact ⟨key, by simp [validateStatsAux, hk], hk, by simp⟩
    | some b =>
      have h2 : ∃ kv2 ∈ rest, statsBackup.lookup kv2.1 = none := by
        rcases h with ⟨kv2, hmem, hnone⟩
        rcases List.mem_cons.mp hmem with hmem | hmem
        · rw [hmem] at hnone; simp only at hnone; rw [hnone] at hk; cases hk
        · exact ⟨kv2, hmem, hnone⟩
      simp only [validateStatsAux, hk]
      by_cases hne : value.rowCount ≠ b.rowCount
      · rw [if_pos hne]
        obtain ⟨k, h1, h2, h3⟩ := ih statsBackup _ h2
        exact ⟨k, h1, h2, by simp [h3]⟩
      · rw [if_neg hne]
        obtain ⟨k, h1, h2, h3⟩ := ih statsBackup _ h2
        exact ⟨k, h1, h2, by simp [h3]⟩

theorem validateStatsAux_notFound_inversion :
    ∀ (stats statsBackup : Stats) (acc : List Mismatch) (k : String),
      validateStatsAux stats statsBackup acc = .statsNotFound k →
      statsBackup.lookup k = none ∧ k ∈ stats.map Prod.fst := by
  intro stats
  induction stats with
  | nil =>
    intro statsBackup acc k h
    simp only [validateStatsAux] at h
    by_cases ha : acc = []
    · rw [if_pos ha] at h; cases h
    · rw [if_neg ha] at h; cases h
  | cons kv rest ih =>
    intro statsBackup acc k h
    obtain ⟨key, value⟩ := kv
    cases hk : statsBackup.lookup key with
    | none =>
      simp only [validateStatsAux, hk, RestoreValidation.statsNotFound.injEq] at h
      subst h
      exact ⟨hk, by simp⟩
    | some b =>
      simp only [validateStatsAux, hk] at h
      by_cases hne : value.rowCount ≠ b.rowCount
      · rw [if_pos hne] at h
        obtain ⟨h1, h2⟩ := ih statsBackup _ k h
        exact ⟨h1, by simp [h2]⟩
      · rw [if_neg hne] at h
        obtain ⟨h1, h2⟩ := ih statsBackup _ k h
        exact ⟨h1, by simp [h2]⟩

/-- C3 (counterexample). The claim as stated quantifies over the tables
of the backup artifact.  On a backup artifact containing `public.orders`
and empty fresh statistics — so the backup table has no matching fresh
entry — the validation returns `ok` instead of any hard error: the code
imposes no requirement on tables that appear only in the backup. -/
theorem validateStats_backup_only_table_passes :
    validateStats [] [("public.orders", ⟨"public.orders", 0, 0, 0, 100⟩)]
        = RestoreValidation.ok := rfl

/-- C3 (amended). The quantification in the validation runs over the
freshly computed post-restore statistics: the hard `stats not found` error
is returned exactly on behalf of a fresh table that has no matching entry
in the backup artifact — whenever such a table exists the validation
returns the hard error, and any returned hard error names such a table. -/
theorem validateStats_notFound_direction (stats statsBackup : Stats) :
    ((∃ kv ∈ stats, statsBackup.lookup kv.1 = none) →
      ∃ k, validateStats stats statsBackup = .statsNotFound k
        ∧ statsBackup.lookup k = none ∧ k ∈ stats.map Prod.fst)
  ∧ (∀ k, validateStats stats statsBackup = .statsNotFound k →
      statsBackup.lookup k = none ∧ k ∈ stats.map Prod.fst) :=
  ⟨fun h => validateStatsAux_notFound_exists stats statsBackup [] h,
    fun k h => validateStatsAux_notFound_inversion stats statsBackup [] k h⟩

/-- C3 (amended, witness). A fresh table absent from the backup is a
hard error naming that table. -/
theorem validateStats_notFound_direction_witness :
    List.lookup "public.orders" ([] : Stats) = none
      ∧ "public.orders"
          ∈ ([("public.orders", ⟨"public.orders", 0, 0, 0, 99⟩)] : Stats).map
              Prod.fst :=
  (validateStats_notFound_direction
    [("public.orders", ⟨"public.orders", 0, 0, 0, 99⟩)] []).2
    "public.orders" (by decide)

/-! ## C7: `CloudSQL.ListDatabasesForCloudSQLInstance` (`part_002`, 152-170)

The loop over the names reported by `Databases.List` skips exactly the
names `"mysql"` and `"postgres"` and appends every other name in order. -/

def ListDatabasesForCloudSQLInstance : List String → List String
  | [] => []
  | d :: rest =>
    if d = "mysql" ∨ d = "postgres" then ListDatabasesForCloudSQLInstance rest
    else d :: ListDatabasesForCloudSQLInstance rest

/-- C7. For every database list reported by the remote API, the
enumerator result contains neither `"mysql"` nor `"postgres"`, contains
every other reported name, and is a sublist of the report — the surviving
names keep the reported order. -/
theorem listDatabases_spec (items : List String) :
    ("mysql" ∉ ListDatabasesForCloudSQLInstance items)
  ∧ ("postgres" ∉ ListDatabasesForCloudSQLInstance items)
  ∧ (∀ n ∈ items, n ≠ "mysql" → n ≠ "postgres" →
      n ∈ ListDatabasesForCloudSQLInstance items)
  ∧ List.Sublist (ListDatabasesForCloudSQLInstance items) items := by
  induction items with
  | nil => exact ⟨by simp [ListDatabasesForCloudSQLInstance],
      by simp [ListDatabasesForCloudSQLInstance],
      by intro n h; simp at h,
      by simp [ListDatabasesForCloudSQLInstance]⟩
  | cons d rest ih =>
    obtain ⟨ih1, ih2, ih3, ih4⟩ := ih
    by_cases hd : d = "mysql" ∨ d = "postgres"
    · refine ⟨?_, ?_, ?_, ?_⟩
      · simpa [ListDatabasesForCloudSQLInstance, hd] using ih1
      · simpa [ListDatabasesForCloudSQLInstance, hd] using ih2
      · intro n hn h1 h2
        rcases List.mem_cons.mp hn with hn | hn
        · subst hn
          rcases hd with hd | hd
          · exact absurd hd h1
          · exact absurd hd h2
        · simpa [ListDatabasesForCloudSQLInstance, hd] using ih3 n hn h1 h2
      · simp only [ListDatabasesForCloudSQLInstance, if_pos hd]
        exact ih4.trans (List.sublist_cons_self d rest)
    · refine ⟨?_, ?_, ?_, ?_⟩
      · simp only [ListDatabasesForCloudSQLInstance, if_neg hd, List.mem_cons,
          not_or]
        exact ⟨fun h => hd (Or.inl h.symm), ih1⟩
      · simp only [ListDatabasesForCloudSQLInstance, if_neg hd, List.mem_cons,
          not_or]
        exact ⟨fun h => hd (Or.inr h.symm), ih2⟩
      · intro n hn h1 h2
        simp only [ListDatabasesForCloudSQLInstance, if_neg hd, List.mem_cons]
        rcases List.mem_cons.mp hn with hn | hn
        · exact Or.inl hn
        · exact Or.inr (ih3 n hn h1 h2)
      · simp only [ListDatabasesForCloudSQLInstance, if_neg hd]
        exact List.Sublist.cons₂ d ih4

/-- C7 (witness). The filter at a concrete report containing both
reserved names. -/
theorem listDatabases_spec_witness :
    ("mysql" ∉ ListDatabasesForCloudSQLInstance
        ["orders", "mysql", "postgres", "events"])
      ∧ ("events" ∈ ListDatabasesForCloudSQLInstance
        ["orders", "mysql", "postgres", "events"]) :=
  ⟨(listDatabases_spec ["orders", "mysql", "postgres", "events"]).1,
    (listDatabases_spec ["orders", "mysql", "postgres", "events"]).2.2.1
      "events" (by decide) (by decide) (by decide)⟩

/-! ## C10: the user-list artifact is written with trailing newlines and
read back by splitting on newline (`part_002`, `ExportCloudSQLUser` 181-207
and the user block of `Restore` 559-599) -/

/-- Model of `ExportCloudSQLUser`: skip the `mysql`/`postgres` users, write
`fmt.Sprintf("%s\n", user.Name)` for every other user, and collect the
exported names.  Returns (bytes written, exported names). -/
def ExportCloudSQLUser : List Str → Str × List Str
  | [] => ([], [])
  | u :: rest =>
    if u = "mysql".data ∨ u = "postgres".data then ExportCloudSQLUser rest
    else
      ((u ++ '\n' :: (ExportCloudSQLUser rest).1),
        u :: (ExportCloudSQLUser rest).2)

/-- In `Restore`, the artifact is read back and its contents split on
newline: `users := strings.Split(string(data), "\n")`. -/
def restoreUserList (data : Str) : List Str :=
  splitChar '\n' data

/-- The user loop of `Restore`: one `Users.Get` per entry of the split
list, and a `Users.Insert` when the lookup finds nothing.  Returns, per
entry, the name looked up and whether a creation is attempted. -/
def restoreUserActions (existing : List Str) (data : Str) : List (Str × Bool) :=
  (restoreUserList data).map (fun u => (u, decide (u ∉ existing)))

/-- C10. Writing then reading the user-list artifact is not an inverse
pair: for every exported user set whose names contain no newline, the list
`Restore` iterates over is the exported names plus one trailing
empty-string entry, and `Restore` performs a user lookup — and a creation
attempt when no user of that name exists — for that empty name. -/
theorem userArtifact_split_trailing_empty (users existing : List Str)
    (hnl : ∀ u ∈ users, '\n' ∉ u) :
    restoreUserList (ExportCloudSQLUser users).1
        = (ExportCloudSQLUser users).2 ++ [[]]
      ∧ (restoreUserActions existing (ExportCloudSQLUser users).1).map Prod.fst
        = (ExportCloudSQLUser users).2 ++ [[]]
      ∧ (([] : Str), decide (([] : Str) ∉ existing))
          ∈ restoreUserActions existing (ExportCloudSQLUser users).1 := by
  have hsplit : restoreUserList (ExportCloudSQLUser users).1
      = (ExportCloudSQLUser users).2 ++ [[]] := by
    induction users with
    | nil => rfl
    | cons u rest ih =>
      have hrest := ih (fun u2 h2 => hnl u2 (List.mem_cons_of_mem u h2))
      by_cases hu : u = "mysql".data ∨ u = "postgres".data
      · simpa [ExportCloudSQLUser, hu] using hrest
      · simp only [ExportCloudSQLUser, if_neg hu]
        show splitChar '\n' (u ++ '\n' :: (ExportCloudSQLUser rest).1) = _
        rw [splitChar_sandwich '\n' u (hnl u (List.mem_cons_self u rest))]
        simp only [restoreUserList] at hrest
        rw [hrest]
        simp
  refine ⟨hsplit, ?_, ?_⟩
  · simp only [restoreUserActions, hsplit, List.map_map]
    have hid : (Prod.fst ∘ fun u : Str => (u, decide (u ∉ existing))) = id := rfl
    rw [hid, List.map_id]
  · simp only [restoreUserActions, hsplit]
    exact List.mem_map.mpr ⟨[], by simp, rfl⟩

/-- C10 (witness). Two exported users produce a three-element restore
list ending in the empty name, which is looked up and would be created. -/
theorem userArtifact_split_trailing_empty_witness :
    restoreUserList (ExportCloudSQLUser ["alice".data, "postgres".data, "bob".data]).1
        = (ExportCloudSQLUser ["alice".data, "postgres".data, "bob".data]).2 ++ [[]]
      ∧ (([] : Str), decide (([] : Str) ∉ ([] : List Str)))
          ∈ restoreUserActions []
            (ExportCloudSQLUser ["alice".data, "postgres".data, "bob".data]).1 :=
  ⟨(userArtifact_split_trailing_empty
      ["alice".data, "postgres".data, "bob".data] [] (by decide)).1,
    (userArtifact_split_trailing_empty
      ["alice".data, "postgres".data, "bob".data] [] (by decide)).2.2⟩

end CloudsqlExporter
